import Mathlib

/-!
Shallow embedding of the work-share iteration scheduler in
`src/libgomp-adaptive/libgomp/iter.c` (an adaptive variant of libgomp's
`iter.c`), together with proofs about the scheduling policies.

Modelling conventions:
* C `long` is modelled by `Int`; C signed division `/` (truncation toward
  zero) is `Int.tdiv`.
* C `unsigned long` intermediates (`n`, `q`, `s0`, `e0`, ... in the static and
  guided schedulers) are modelled by `Nat`; the conversion `long -> unsigned
  long` at an assignment is `Int.toNat`.  This matches the C semantics
  whenever the converted value is nonnegative and in range, which the stated
  preconditions guarantee; machine-width wraparound is not reachable there.
* Output parameters `*pstart`/`*pend` are modelled by threading their
  previous values `p0 : Int × Int` through each function, so that "the call
  does not write the outputs" is expressible as returning `p0` unchanged.
* The CAS retry loops of `gomp_iter_dynamic_next` / `gomp_iter_guided_next`
  are modelled in their sequential (single observer) semantics: the
  `__sync_val_compare_and_swap` on `ws->next` succeeds on the first attempt,
  since `ws->next` equals the value just read.  The loop body is otherwise
  transcribed verbatim.
* `__sync_fetch_and_add (&ws->next, chunk)` returns the old value and stores
  the sum; both effects are explicit below.
-/

/-- The fields of `struct gomp_work_share` used by `iter.c`. -/
structure WorkShare where
  start_t0 : Int
  end' : Int
  incr : Int
  chunk_size : Int
  next : Int
  mode : Bool
  nb_iterations_left : Int
  deriving Repr, DecidableEq

/-- The fields of the thread-local `thr->ts` used by `gomp_iter_static_next`. -/
structure ThreadTs where
  team_id : Nat
  static_trip : Int
  deriving Repr, DecidableEq

/-- Result of `gomp_iter_static_next`: the returned `int`, the updated
`static_trip`, and the final values of the output variables. -/
structure StaticResult where
  ret : Int
  static_trip : Int
  pstart : Int
  pend : Int
  deriving Repr, DecidableEq

/-- Result of the dynamic/guided `next` functions: the returned `bool`, the
updated work share, and the final values of the output variables. -/
structure IterResult where
  ret : Bool
  ws : WorkShare
  pstart : Int
  pend : Int
  deriving Repr, DecidableEq

/-- `gomp_iter_static_next` (iter.c lines 37-141).  `nthreads` is
`team ? team->nthreads : 1`; `p0` holds the prior values of the outputs. -/
def gomp_iter_static_next (ws : WorkShare) (nthreads : Nat) (ts : ThreadTs)
    (p0 : Int × Int) : StaticResult :=
  if ts.static_trip = -1 then
    ⟨-1, ts.static_trip, p0.1, p0.2⟩
  else if nthreads = 1 then
    -- Quick test for degenerate teams and orphaned constructs.
    let retval : Int := if ws.next = ws.end' then 1 else 0
    ⟨retval, -1, ws.next, ws.end'⟩
  else if ws.chunk_size = 0 then
    -- chunk_size zero: each thread makes only one trip through the loop.
    if ts.static_trip > 0 then
      ⟨1, ts.static_trip, p0.1, p0.2⟩
    else
      let s : Int := ws.incr + (if ws.incr > 0 then -1 else 1)
      let n : Nat := ((ws.end' - ws.next + s).tdiv ws.incr).toNat
      let i : Nat := ts.team_id
      let q0 : Nat := n / nthreads
      let q : Nat := q0 + (if q0 * nthreads ≠ n then 1 else 0)
      let s0 : Nat := q * i
      let e1 : Nat := s0 + q
      let e0 : Nat := if e1 > n then n else e1
      if s0 ≥ e0 then
        ⟨1, 1, p0.1, p0.2⟩
      else
        let sa : Int := (s0 : Int) * ws.incr + ws.next
        let ea : Int := (e0 : Int) * ws.incr + ws.next
        ⟨0, if e0 = n then -1 else 1, sa, ea⟩
  else
    -- chunk_size > 0: round-robin chunks of chunk_size iterations.
    let s : Int := ws.incr + (if ws.incr > 0 then -1 else 1)
    let n : Nat := ((ws.end' - ws.next + s).tdiv ws.incr).toNat
    let i : Nat := ts.team_id
    let c : Nat := ws.chunk_size.toNat
    let s0 : Nat := (ts.static_trip.toNat * nthreads + i) * c
    let e1 : Nat := s0 + c
    if s0 ≥ n then
      ⟨1, ts.static_trip, p0.1, p0.2⟩
    else
      let e0 : Nat := if e1 > n then n else e1
      let sa : Int := (s0 : Int) * ws.incr + ws.next
      let ea : Int := (e0 : Int) * ws.incr + ws.next
      ⟨0, if e0 = n then -1 else ts.static_trip + 1, sa, ea⟩

/-- `gomp_iter_dynamic_next_locked` (iter.c lines 148-177). -/
def gomp_iter_dynamic_next_locked (ws : WorkShare) (p0 : Int × Int) :
    IterResult :=
  let start := ws.next
  if start = ws.end' then
    ⟨false, ws, p0.1, p0.2⟩
  else
    let chunk := ws.chunk_size
    let left := ws.end' - start
    let chunk :=
      if ws.incr < 0 then (if chunk < left then left else chunk)
      else (if chunk > left then left else chunk)
    let e := start + chunk
    ⟨true, { ws with next := e }, start, e⟩

/-- `gomp_iter_dynamic_next` (iter.c lines 184-258), sequential semantics:
the fetch-and-add stores `next + chunk` and yields the old `next`; the CAS
loop succeeds on its first attempt. -/
def gomp_iter_dynamic_next (ws : WorkShare) (p0 : Int × Int) : IterResult :=
  let e := ws.end'
  let incr := ws.incr
  let chunk := ws.chunk_size
  if ws.mode then
    let tmp := ws.next
    let ws' := { ws with next := ws.next + chunk }
    if incr > 0 then
      if tmp ≥ e then ⟨false, ws', p0.1, p0.2⟩
      else
        let nend := tmp + chunk
        let nend := if nend > e then e else nend
        ⟨true, ws', tmp, nend⟩
    else
      if tmp ≤ e then ⟨false, ws', p0.1, p0.2⟩
      else
        let nend := tmp + chunk
        let nend := if nend < e then e else nend
        ⟨true, ws', tmp, nend⟩
  else
    let start := ws.next
    if start = e then ⟨false, ws, p0.1, p0.2⟩
    else
      let left := e - start
      let chunk :=
        if incr < 0 then (if chunk < left then left else chunk)
        else (if chunk > left then left else chunk)
      let nend := start + chunk
      ⟨true, { ws with next := nend }, start, nend⟩

/-- `gomp_iter_guided_next_locked` (iter.c lines 266-295).  The `unsigned
long` quantities `n` and `q` are `Nat`s; the comparison `q < ws->chunk_size`
converts `ws->chunk_size` to `unsigned long`, here `Int.toNat` (faithful for
the precondition `chunk_size ≥ 0`). -/
def gomp_iter_guided_next_locked (ws : WorkShare) (nthreads : Nat)
    (p0 : Int × Int) : IterResult :=
  if ws.next = ws.end' then
    ⟨false, ws, p0.1, p0.2⟩
  else
    let start := ws.next
    let n : Nat := ((ws.end' - start).tdiv ws.incr).toNat
    let q : Nat := (n + nthreads - 1) / nthreads
    let q : Nat := if q < ws.chunk_size.toNat then ws.chunk_size.toNat else q
    let e : Int := if q ≤ n then start + (q : Int) * ws.incr else ws.end'
    ⟨true, { ws with next := e }, start, e⟩

/-- `gomp_iter_guided_next` (iter.c lines 540-585), sequential semantics:
the CAS on `ws->next` succeeds on its first attempt, so the loop body runs
once with `start = ws.next`. -/
def gomp_iter_guided_next (ws : WorkShare) (nthreads : Nat)
    (p0 : Int × Int) : IterResult :=
  let start := ws.next
  let e := ws.end'
  let incr := ws.incr
  let chunk_size : Nat := ws.chunk_size.toNat
  if start = e then
    ⟨false, ws, p0.1, p0.2⟩
  else
    let n : Nat := ((e - start).tdiv incr).toNat
    let q : Nat := (n + nthreads - 1) / nthreads
    let q : Nat := if q < chunk_size then chunk_size else q
    let nend : Int := if q ≤ n then start + (q : Int) * incr else e
    ⟨true, { ws with next := nend }, start, nend⟩

/-- The fields of `struct gomp_ws_adaptive_chunk` used by the adaptive
scheduler (the lock is a runtime object, not state). -/
structure AdaptiveChunk where
  begin : Int
  end' : Int
  nb_exec : Int
  is_init : Bool
  deriving Repr, DecidableEq

/-- Result of `gomp_iter_adaptive_try_local_work`: the returned `bool`, the
updated local chunk, and the final output values. -/
structure LocalResult where
  ret : Bool
  chunk : AdaptiveChunk
  pstart : Int
  pend : Int
  deriving Repr, DecidableEq

/-- `gomp_iter_adaptive_try_local_work` (iter.c lines 347-394), owner-only
(sequential) semantics: no thief mutates `end` between the speculative
advance of `begin` and the test, so the fence is a no-op. -/
def gomp_iter_adaptive_try_local_work (lq : AdaptiveChunk) (chunk_size : Int)
    (p0 : Int × Int) : LocalResult :=
  let b := lq.begin + chunk_size
  if b < lq.end' then
    ⟨true, { lq with begin := b, nb_exec := lq.nb_exec + chunk_size },
      b - chunk_size, b⟩
  else
    let b := b - chunk_size
    let size := lq.end' - b
    if size > 0 then
      let size := if size > chunk_size then chunk_size else size
      let b := b + size
      ⟨true, { lq with begin := b, nb_exec := lq.nb_exec + size },
        b - size, b⟩
    else
      ⟨false, { lq with begin := b }, p0.1, p0.2⟩

/-- Result of `gomp_iter_adaptive_next`: the returned `bool`, the updated
work share and local chunk, and the final output values. -/
structure AdaptiveResult where
  ret : Bool
  ws : WorkShare
  chunk : AdaptiveChunk
  pstart : Int
  pend : Int
  deriving Repr, DecidableEq

/-- `gomp_iter_adaptive_next` (iter.c lines 483-537) as compiled: the whole
"decrement `nb_iterations_left`, then steal" block (lines 502-531) is removed
by the preprocessor because it sits under `#if 0`, so after a failed local
acquisition the function falls through to `return false`.
`initWorker` abstracts the external `gomp_loop_adaptive_init_worker`
collaborator invoked when `is_init` is false. -/
def gomp_iter_adaptive_next (initWorker : AdaptiveChunk → AdaptiveChunk)
    (ws : WorkShare) (local_chunk : AdaptiveChunk) (p0 : Int × Int) :
    AdaptiveResult :=
  let local_chunk :=
    if !local_chunk.is_init then initWorker local_chunk else local_chunk
  let chunk_size := ws.chunk_size
  let r := gomp_iter_adaptive_try_local_work local_chunk chunk_size p0
  if r.ret then ⟨true, ws, r.chunk, r.pstart, r.pend⟩
  else ⟨false, ws, r.chunk, r.pstart, r.pend⟩

/-- `gomp_iter_adaptive_next` as the spec describes it (section 4.4,
"Termination"): when local work fails, first `__sync_sub_and_fetch` the
worker's `nb_exec` out of `ws->nb_iterations_left` and reset `nb_exec`.
(Modelled from the spec only as far as needed to exhibit the divergence:
the publish step that the compiled code skips.) -/
def adaptive_next_spec_publish (ws : WorkShare) (local_chunk : AdaptiveChunk) :
    Int × WorkShare × AdaptiveChunk :=
  let retval := ws.nb_iterations_left - local_chunk.nb_exec
  (retval, { ws with nb_iterations_left := retval },
    { local_chunk with nb_exec := 0 })

/-- The spec's well-formedness condition on a returned range: in the `incr`
direction `pstart` comes no later than `pend`, and their distance is a
multiple of `incr`. -/
def wellFormedRange (incr pstart pend : Int) : Prop :=
  (0 < incr → pstart ≤ pend) ∧ (incr < 0 → pend ≤ pstart) ∧
    (pend - pstart) % incr = 0

instance (incr pstart pend : Int) : Decidable (wellFormedRange incr pstart pend) := by
  unfold wellFormedRange; infer_instance

/-- Iterate the (sequential) guided claim `j` times from a work share. -/
def guidedIter (nthreads : Nat) (p0 : Int × Int) : Nat → WorkShare → WorkShare
  | 0, ws => ws
  | j + 1, ws => guidedIter nthreads p0 j (gomp_iter_guided_next ws nthreads p0).ws

/-- A range of the shape `[base, base + c·incr)` with `c : Nat` is well
formed: it runs in the direction of `incr` and spans a multiple of `incr`. -/
theorem wellFormedRange_add_mul (incr base : Int) (c : Nat) :
    wellFormedRange incr base (base + (c : Int) * incr) := by
  refine ⟨?_, ?_, ?_⟩
  · intro h
    have hc : (0 : Int) ≤ (c : Int) * incr :=
      mul_nonneg (Int.natCast_nonneg c) h.le
    linarith
  · intro h
    have hc : (c : Int) * incr ≤ 0 :=
      mul_nonpos_of_nonneg_of_nonpos (Int.natCast_nonneg c) h.le
    linarith
  · have : base + (c : Int) * incr - base = (c : Int) * incr := by ring
    rw [this]
    exact Int.mul_emod_left _ _

/-- Truncated division of `k·j + (j − 1)` by a positive `j` is exactly `k`:
this is the C idiom `(len + incr - 1) / incr` for a nonnegative multiple. -/
theorem tdiv_mul_add_pred (j : Int) (k : Nat) (hj : 0 < j) :
    ((k : Int) * j + (j - 1)).tdiv j = k := by
  have h0 : (0 : Int) ≤ j - 1 := by omega
  have hkj : (0 : Int) ≤ (k : Int) * j := mul_nonneg (Int.natCast_nonneg k) hj.le
  have h1 : (0 : Int) ≤ (k : Int) * j + (j - 1) := by linarith
  rw [Int.tdiv_eq_ediv h1 hj.le,
    show (k : Int) * j + (j - 1) = (j - 1) + (k : Int) * j by ring,
    Int.add_mul_ediv_right _ _ (ne_of_gt hj),
    Int.ediv_eq_zero_of_lt h0 (by omega)]
  simp

/-- The iteration count `n` computed by `gomp_iter_static_next` equals the
exact number of remaining iterations when the distance is the multiple
`k·incr`. -/
theorem static_count_eq (incr : Int) (k : Nat) (h : incr ≠ 0) :
    (((k : Int) * incr + (incr + (if incr > 0 then -1 else 1))).tdiv
        incr).toNat = k := by
  rcases h.lt_or_lt with hneg | hpos
  · rw [if_neg (by omega)]
    have h1 : (k : Int) * incr + (incr + 1) =
        -((k : Int) * (-incr) + ((-incr) - 1)) := by ring
    rw [h1, show (-((k : Int) * (-incr) + ((-incr) - 1))).tdiv incr =
          ((k : Int) * (-incr) + ((-incr) - 1)).tdiv (-incr) from by
        rw [← Int.neg_tdiv_neg]; ring_nf,
      tdiv_mul_add_pred (-incr) k (by omega)]
    simp
  · rw [if_pos hpos]
    have h1 : (k : Int) * incr + (incr + -1) =
        (k : Int) * incr + (incr - 1) := by ring
    rw [h1, tdiv_mul_add_pred incr k hpos]
    simp

/-- The remaining-count `n` computed by the guided schedulers equals `k`
when the distance from the cursor to the end is the multiple `k·incr`. -/
theorem guided_count_eq (incr : Int) (k : Nat) (h : incr ≠ 0) :
    (((k : Int) * incr).tdiv incr).toNat = k := by
  rw [Int.mul_tdiv_cancel _ h]
  simp

/-- Sequential guided claim (lock-free variant), fully evaluated: from a
state with exactly `k ≥ 1` remaining iterations the claim succeeds and the
cursor advances by `min (max ⌈k/nthreads⌉ chunk_size) k` iterations. -/
theorem guided_next_eq (ws : WorkShare) (nthreads : Nat) (p0 : Int × Int)
    (k : Nat) (hincr : ws.incr ≠ 0)
    (hk : ws.end' - ws.next = (k : Int) * ws.incr) (hk1 : 1 ≤ k) :
    gomp_iter_guided_next ws nthreads p0 =
      ⟨true,
        { ws with next := ws.next +
            (↑(min (max ((k + nthreads - 1) / nthreads) ws.chunk_size.toNat)
              k) : Int) * ws.incr },
        ws.next,
        ws.next + (↑(min (max ((k + nthreads - 1) / nthreads)
            ws.chunk_size.toNat) k) : Int) * ws.incr⟩ := by
  have hkz : ((k : Int) * ws.incr) ≠ 0 :=
    mul_ne_zero (Int.natCast_ne_zero.mpr (by omega)) hincr
  have hne : ws.next ≠ ws.end' := by
    intro h
    rw [h, sub_self] at hk
    exact hkz hk.symm
  have hend : ws.end' = ws.next + (k : Int) * ws.incr := by linarith
  have hn : ((ws.end' - ws.next).tdiv ws.incr).toNat = k := by
    rw [hk]; exact guided_count_eq ws.incr k hincr
  simp only [gomp_iter_guided_next, hn, if_neg hne]
  have hq : (if (k + nthreads - 1) / nthreads < ws.chunk_size.toNat
        then ws.chunk_size.toNat else (k + nthreads - 1) / nthreads)
      = max ((k + nthreads - 1) / nthreads) ws.chunk_size.toNat := by
    split_ifs <;> omega
  rw [hq]
  rcases le_or_lt (max ((k + nthreads - 1) / nthreads) ws.chunk_size.toNat) k
    with hle | hlt
  · rw [if_pos hle, min_eq_left hle]
  · rw [if_neg (not_le.mpr hlt), min_eq_right hlt.le, hend]

/-- Sequential guided claim (lock-held variant), fully evaluated;
identical advance to `guided_next_eq`. -/
theorem guided_next_locked_eq (ws : WorkShare) (nthreads : Nat)
    (p0 : Int × Int) (k : Nat) (hincr : ws.incr ≠ 0)
    (hk : ws.end' - ws.next = (k : Int) * ws.incr) (hk1 : 1 ≤ k) :
    gomp_iter_guided_next_locked ws nthreads p0 =
      ⟨true,
        { ws with next := ws.next +
            (↑(min (max ((k + nthreads - 1) / nthreads) ws.chunk_size.toNat)
              k) : Int) * ws.incr },
        ws.next,
        ws.next + (↑(min (max ((k + nthreads - 1) / nthreads)
            ws.chunk_size.toNat) k) : Int) * ws.incr⟩ := by
  have hkz : ((k : Int) * ws.incr) ≠ 0 :=
    mul_ne_zero (Int.natCast_ne_zero.mpr (by omega)) hincr
  have hne : ws.next ≠ ws.end' := by
    intro h
    rw [h, sub_self] at hk
    exact hkz hk.symm
  have hend : ws.end' = ws.next + (k : Int) * ws.incr := by linarith
  have hn : ((ws.end' - ws.next).tdiv ws.incr).toNat = k := by
    rw [hk]; exact guided_count_eq ws.incr k hincr
  simp only [gomp_iter_guided_next_locked, hn, if_neg hne]
  have hq : (if (k + nthreads - 1) / nthreads < ws.chunk_size.toNat
        then ws.chunk_size.toNat else (k + nthreads - 1) / nthreads)
      = max ((k + nthreads - 1) / nthreads) ws.chunk_size.toNat := by
    split_ifs <;> omega
  rw [hq]
  rcases le_or_lt (max ((k + nthreads - 1) / nthreads) ws.chunk_size.toNat) k
    with hle | hlt
  · rw [if_pos hle, min_eq_left hle]
  · rw [if_neg (not_le.mpr hlt), min_eq_right hlt.le, hend]

/-- C8: in static scheduling with `chunk_size = 0`, `nthreads = 4`,
`start = 0`, `end = 10`, `incr = 1`, the first call of threads 0..3 yields
the ranges `[0,3)`, `[3,6)`, `[6,9)`, `[9,10)` respectively, and each
thread's second call (with the trip counter the first call left behind)
produces no range and leaves the trip counter unchanged, so all subsequent
calls produce no range either. -/
theorem static_chunk0_partition :
    gomp_iter_static_next ⟨0, 10, 1, 0, 0, false, 0⟩ 4 ⟨0, 0⟩ (0, 0) =
      ⟨0, 1, 0, 3⟩ ∧
    gomp_iter_static_next ⟨0, 10, 1, 0, 0, false, 0⟩ 4 ⟨1, 0⟩ (0, 0) =
      ⟨0, 1, 3, 6⟩ ∧
    gomp_iter_static_next ⟨0, 10, 1, 0, 0, false, 0⟩ 4 ⟨2, 0⟩ (0, 0) =
      ⟨0, 1, 6, 9⟩ ∧
    gomp_iter_static_next ⟨0, 10, 1, 0, 0, false, 0⟩ 4 ⟨3, 0⟩ (0, 0) =
      ⟨0, -1, 9, 10⟩ ∧
    gomp_iter_static_next ⟨0, 10, 1, 0, 0, false, 0⟩ 4 ⟨0, 1⟩ (0, 0) =
      ⟨1, 1, 0, 0⟩ ∧
    gomp_iter_static_next ⟨0, 10, 1, 0, 0, false, 0⟩ 4 ⟨1, 1⟩ (0, 0) =
      ⟨1, 1, 0, 0⟩ ∧
    gomp_iter_static_next ⟨0, 10, 1, 0, 0, false, 0⟩ 4 ⟨2, 1⟩ (0, 0) =
      ⟨1, 1, 0, 0⟩ ∧
    gomp_iter_static_next ⟨0, 10, 1, 0, 0, false, 0⟩ 4 ⟨3, -1⟩ (0, 0) =
      ⟨-1, -1, 0, 0⟩ := by
  decide

/-- C7: when the shared cursor is exhausted (`ws.next == ws.end`), both
locked `next` functions return false and leave the work share and the output
variables exactly as they were. -/
theorem locked_exhaustion_is_noop (ws : WorkShare) (nthreads : Nat)
    (p0 : Int × Int) (h : ws.next = ws.end') :
    gomp_iter_dynamic_next_locked ws p0 = ⟨false, ws, p0.1, p0.2⟩ ∧
    gomp_iter_guided_next_locked ws nthreads p0 = ⟨false, ws, p0.1, p0.2⟩ := by
  constructor
  · simp [gomp_iter_dynamic_next_locked, h]
  · simp [gomp_iter_guided_next_locked, h]

/-- Witness for `locked_exhaustion_is_noop` at a concrete exhausted state. -/
theorem locked_exhaustion_is_noop_witness :
    gomp_iter_dynamic_next_locked ⟨0, 10, 1, 2, 10, false, 0⟩ (3, 4) =
      ⟨false, ⟨0, 10, 1, 2, 10, false, 0⟩, 3, 4⟩ ∧
    gomp_iter_guided_next_locked ⟨0, 10, 1, 2, 10, false, 0⟩ 4 (3, 4) =
      ⟨false, ⟨0, 10, 1, 2, 10, false, 0⟩, 3, 4⟩ :=
  locked_exhaustion_is_noop ⟨0, 10, 1, 2, 10, false, 0⟩ 4 (3, 4) (by decide)

/-- C10: with a degenerate team (`nthreads == 1`), a first call
(`static_trip = 0`) hands out the whole remaining space `[ws.next, ws.end)`
as one range (the outputs are written even when it is empty), sets
`static_trip` to `-1`, and returns 1 exactly when `ws.next == ws.end`
(else 0); any call with `static_trip = -1` returns `-1` and writes
nothing. -/
theorem static_degenerate_team (ws : WorkShare) (ts : ThreadTs)
    (p0 : Int × Int) (h : ts.static_trip = 0) :
    gomp_iter_static_next ws 1 ts p0 =
      ⟨if ws.next = ws.end' then 1 else 0, -1, ws.next, ws.end'⟩ ∧
    gomp_iter_static_next ws 1 ⟨ts.team_id, -1⟩ p0 =
      ⟨-1, -1, p0.1, p0.2⟩ := by
  constructor
  · simp [gomp_iter_static_next, h]
  · simp [gomp_iter_static_next]

/-- Witness for `static_degenerate_team`: nonempty and empty spaces. -/
theorem static_degenerate_team_witness :
    gomp_iter_static_next ⟨0, 5, 1, 3, 2, false, 0⟩ 1 ⟨0, 0⟩ (9, 9) =
      ⟨0, -1, 2, 5⟩ ∧
    gomp_iter_static_next ⟨0, 5, 1, 3, 2, false, 0⟩ 1 ⟨0, -1⟩ (9, 9) =
      ⟨-1, -1, 9, 9⟩ := by
  have h := static_degenerate_team ⟨0, 5, 1, 3, 2, false, 0⟩ ⟨0, 0⟩ (9, 9) rfl
  exact ⟨by simpa using h.1, h.2⟩

/-- C2 counterexample: with `chunk_size = 0`, `nthreads = 4`, bounds
`[0,10)`, `incr = 1`, thread 3's first call produces the absolutely final
range `[9,10)` (the clamp `e0 == n` activates: `pend = ws.end` and
`static_trip` is set to `-1`), yet the call returns 0, not a negative
value. -/
theorem static_final_range_returns_zero :
    (gomp_iter_static_next ⟨0, 10, 1, 0, 0, false, 0⟩ 4 ⟨3, 0⟩ (0, 0)).ret
        = 0 ∧
    ¬ (gomp_iter_static_next ⟨0, 10, 1, 0, 0, false, 0⟩ 4 ⟨3, 0⟩ (0, 0)).ret
        < 0 ∧
    (gomp_iter_static_next ⟨0, 10, 1, 0, 0, false, 0⟩ 4 ⟨3, 0⟩ (0, 0)).pstart
        = 9 ∧
    (gomp_iter_static_next ⟨0, 10, 1, 0, 0, false, 0⟩ 4 ⟨3, 0⟩ (0, 0)).pend
        = 10 ∧
    (gomp_iter_static_next ⟨0, 10, 1, 0, 0, false, 0⟩ 4 ⟨3, 0⟩
        (0, 0)).static_trip = -1 := by
  decide

/-- C1: at a state with no local work left (`begin == end`), unexecuted
bookkeeping (`nb_exec = 4`) and `nb_iterations_left = 6 ≠ 0`, the compiled
`gomp_iter_adaptive_next` returns false immediately: it neither subtracts
`nb_exec` from `nb_iterations_left` (both are returned unchanged) nor resets
`nb_exec`, and it never attempts a steal, because the whole publish-and-steal
block is compiled out by `#if 0`.  The spec-mandated publish step would have
left `nb_iterations_left = 2 ≠ 0`, so the call should have gone on to
steal rather than return false. -/
theorem adaptive_next_steal_disabled :
    (gomp_iter_adaptive_next id ⟨0, 10, 1, 2, 0, false, 6⟩ ⟨10, 10, 4, true⟩
        (0, 0)).ret = false ∧
    (gomp_iter_adaptive_next id ⟨0, 10, 1, 2, 0, false, 6⟩ ⟨10, 10, 4, true⟩
        (0, 0)).ws.nb_iterations_left = 6 ∧
    (gomp_iter_adaptive_next id ⟨0, 10, 1, 2, 0, false, 6⟩ ⟨10, 10, 4, true⟩
        (0, 0)).chunk.nb_exec = 4 ∧
    (adaptive_next_spec_publish ⟨0, 10, 1, 2, 0, false, 6⟩
        ⟨10, 10, 4, true⟩).1 = 2 ∧
    (adaptive_next_spec_publish ⟨0, 10, 1, 2, 0, false, 6⟩
        ⟨10, 10, 4, true⟩).2.2.nb_exec = 0 := by
  decide

/-- C4: a successful guided claim (either variant) moves the cursor to
`start + min(q, n) · incr` with `n = k` the remaining iteration count and
`q = max((n + nthreads - 1) / nthreads, chunk_size)`; for `nthreads ≥ 1` the
Nat division `(n + nthreads - 1) / nthreads` is exactly `ceil(n / nthreads)`,
so each claim hands out `max(ceil(remaining / nthreads), chunk_size)`
iterations clamped to the remainder. -/
theorem guided_claim_size (ws : WorkShare) (nthreads : Nat) (p0 : Int × Int)
    (k : Nat) (hincr : ws.incr ≠ 0)
    (hk : ws.end' - ws.next = (k : Int) * ws.incr) (hk1 : 1 ≤ k) :
    (gomp_iter_guided_next_locked ws nthreads p0).ret = true ∧
    (gomp_iter_guided_next ws nthreads p0).ret = true ∧
    (gomp_iter_guided_next_locked ws nthreads p0).ws.next =
      ws.next + (↑(min (max ((k + nthreads - 1) / nthreads)
        ws.chunk_size.toNat) k) : Int) * ws.incr ∧
    (gomp_iter_guided_next ws nthreads p0).ws.next =
      ws.next + (↑(min (max ((k + nthreads - 1) / nthreads)
        ws.chunk_size.toNat) k) : Int) * ws.incr := by
  rw [guided_next_locked_eq ws nthreads p0 k hincr hk hk1,
    guided_next_eq ws nthreads p0 k hincr hk hk1]
  exact ⟨rfl, rfl, rfl, rfl⟩

/-- Witness for `guided_claim_size`: from `[0,1000)`, `incr = 1`,
`nthreads = 4`, `chunk_size = 1`, the first claim takes
`max(ceil(1000/4), 1) = 250` iterations. -/
theorem guided_claim_size_witness :
    (gomp_iter_guided_next ⟨0, 1000, 1, 1, 0, false, 0⟩ 4 (0, 0)).ws.next
      = 250 := by
  have h := guided_claim_size ⟨0, 1000, 1, 1, 0, false, 0⟩ 4 (0, 0) 1000
    (by decide) (by decide) (by decide)
  rw [h.2.2.2]
  decide

/-- Repeated sequential guided claims from a state with `k` remaining
iterations reach the end of the iteration space within `k` claims. -/
theorem guidedIter_reaches (nthreads : Nat) (p0 : Int × Int)
    (hnt : 1 ≤ nthreads) :
    ∀ k : Nat, ∀ ws : WorkShare, ws.incr ≠ 0 →
      ws.end' - ws.next = (k : Int) * ws.incr →
      ∃ j : Nat, j ≤ k ∧ (guidedIter nthreads p0 j ws).next = ws.end' := by
  intro k
  induction k using Nat.strong_induction_on with
  | _ k ih =>
    intro ws hincr hk
    rcases Nat.eq_zero_or_pos k with hk0 | hk1
    · subst hk0
      refine ⟨0, Nat.le_refl 0, ?_⟩
      show ws.next = ws.end'
      push_cast at hk
      rw [zero_mul] at hk
      omega
    · have hstep := guided_next_eq ws nthreads p0 k hincr hk hk1
      have hq1 : 1 ≤ (k + nthreads - 1) / nthreads :=
        (Nat.le_div_iff_mul_le (by omega)).mpr (by omega)
      have hm1 : 1 ≤ min (max ((k + nthreads - 1) / nthreads)
          ws.chunk_size.toNat) k := by omega
      have hmk : min (max ((k + nthreads - 1) / nthreads)
          ws.chunk_size.toNat) k ≤ k := min_le_right _ _
      have hk' : ((gomp_iter_guided_next ws nthreads p0).ws).end' -
          ((gomp_iter_guided_next ws nthreads p0).ws).next =
          ((k - min (max ((k + nthreads - 1) / nthreads)
            ws.chunk_size.toNat) k : Nat) : Int) *
          ((gomp_iter_guided_next ws nthreads p0).ws).incr := by
        rw [hstep]
        show ws.end' - (ws.next + _) = _
        rw [Nat.cast_sub hmk]
        linear_combination hk
      have hincr' : ((gomp_iter_guided_next ws nthreads p0).ws).incr ≠ 0 := by
        rw [hstep]; exact hincr
      obtain ⟨j, hj, hreach⟩ := ih _ (by omega) _ hincr' hk'
      refine ⟨j + 1, by omega, ?_⟩
      show (guidedIter nthreads p0 j (gomp_iter_guided_next ws nthreads p0).ws).next = ws.end'
      rw [hreach, hstep]

/-- C6: from a state with `k ≥ 1` remaining iterations, every successful
guided claim (either variant) strictly advances the cursor by `m` steps of
`incr` with `1 ≤ m ≤ k` — so the new cursor differs from the observed start,
lies strictly past it toward the end, and never passes the end — and
repeated claims reach the end within `k` claims. -/
theorem guided_strict_advance (ws : WorkShare) (nthreads : Nat)
    (p0 : Int × Int) (k : Nat) (hincr : ws.incr ≠ 0)
    (hk : ws.end' - ws.next = (k : Int) * ws.incr) (hk1 : 1 ≤ k)
    (hnt : 1 ≤ nthreads) :
    (∃ m : Nat, 1 ≤ m ∧ m ≤ k ∧
      (gomp_iter_guided_next ws nthreads p0).ret = true ∧
      (gomp_iter_guided_next ws nthreads p0).ws.next =
        ws.next + (m : Int) * ws.incr ∧
      (gomp_iter_guided_next_locked ws nthreads p0).ws.next =
        ws.next + (m : Int) * ws.incr ∧
      (gomp_iter_guided_next ws nthreads p0).ws.next ≠ ws.next) ∧
    (∃ j : Nat, j ≤ k ∧ (guidedIter nthreads p0 j ws).next = ws.end') := by
  constructor
  · have hq1 : 1 ≤ (k + nthreads - 1) / nthreads :=
      (Nat.le_div_iff_mul_le (by omega)).mpr (by omega)
    refine ⟨min (max ((k + nthreads - 1) / nthreads) ws.chunk_size.toNat) k,
      by omega, min_le_right _ _, ?_, ?_, ?_, ?_⟩
    · rw [guided_next_eq ws nthreads p0 k hincr hk hk1]
    · rw [guided_next_eq ws nthreads p0 k hincr hk hk1]
    · rw [guided_next_locked_eq ws nthreads p0 k hincr hk hk1]
    · rw [guided_next_eq ws nthreads p0 k hincr hk hk1]
      have hmz : (↑(min (max ((k + nthreads - 1) / nthreads)
          ws.chunk_size.toNat) k) : Int) * ws.incr ≠ 0 :=
        mul_ne_zero (Int.natCast_ne_zero.mpr (by omega)) hincr
      show ws.next + _ ≠ ws.next
      intro habs
      exact hmz (by linarith)
  · exact guidedIter_reaches nthreads p0 hnt k ws hincr hk

/-- Witness for `guided_strict_advance` on `[0,100)`, `incr = 1`,
`chunk_size = 5`, `nthreads = 2`. -/
theorem guided_strict_advance_witness :
    (∃ m : Nat, 1 ≤ m ∧ m ≤ 100 ∧
      (gomp_iter_guided_next ⟨0, 100, 1, 5, 0, false, 0⟩ 2 (0, 0)).ret
        = true ∧
      (gomp_iter_guided_next ⟨0, 100, 1, 5, 0, false, 0⟩ 2 (0, 0)).ws.next
        = 0 + (m : Int) * 1 ∧
      (gomp_iter_guided_next_locked ⟨0, 100, 1, 5, 0, false, 0⟩ 2
        (0, 0)).ws.next = 0 + (m : Int) * 1 ∧
      (gomp_iter_guided_next ⟨0, 100, 1, 5, 0, false, 0⟩ 2 (0, 0)).ws.next
        ≠ 0) ∧
    (∃ j : Nat, j ≤ 100 ∧
      (guidedIter 2 (0, 0) j ⟨0, 100, 1, 5, 0, false, 0⟩).next = 100) :=
  guided_strict_advance ⟨0, 100, 1, 5, 0, false, 0⟩ 2 (0, 0) 100
    (by decide) (by decide) (by decide) (by decide)

/-- C9: with `ws.mode` set, every call to `gomp_iter_dynamic_next` stores
`ws.next + chunk` back into `ws.next` (the fetch-and-add), even when it
returns false; with the chunk field the positive multiple `c·incr` (`c ≥ 1`)
and the cursor already at or past the end, the call returns false without
writing the outputs yet still moves `ws.next` strictly further past the end,
and the exhausted condition persists for subsequent calls. -/
theorem dynamic_next_mode_drift (ws : WorkShare) (p0 : Int × Int) (c : Nat)
    (hm : ws.mode = true) (hc : ws.chunk_size = (c : Int) * ws.incr)
    (hc1 : 1 ≤ c) :
    (gomp_iter_dynamic_next ws p0).ws.next = ws.next + ws.chunk_size ∧
    (0 < ws.incr → ws.end' ≤ ws.next →
      (gomp_iter_dynamic_next ws p0).ret = false ∧
      (gomp_iter_dynamic_next ws p0).pstart = p0.1 ∧
      (gomp_iter_dynamic_next ws p0).pend = p0.2 ∧
      ws.next < (gomp_iter_dynamic_next ws p0).ws.next ∧
      ws.end' ≤ (gomp_iter_dynamic_next ws p0).ws.next) ∧
    (ws.incr < 0 → ws.next ≤ ws.end' →
      (gomp_iter_dynamic_next ws p0).ret = false ∧
      (gomp_iter_dynamic_next ws p0).pstart = p0.1 ∧
      (gomp_iter_dynamic_next ws p0).pend = p0.2 ∧
      (gomp_iter_dynamic_next ws p0).ws.next < ws.next ∧
      (gomp_iter_dynamic_next ws p0).ws.next ≤ ws.end') := by
  refine ⟨?_, ?_, ?_⟩
  · simp only [gomp_iter_dynamic_next, hm]
    split_ifs <;> rfl
  · intro hpos hex
    have hch : (0 : Int) < ws.chunk_size := by
      rw [hc]
      exact mul_pos (by exact_mod_cast (by omega : 0 < c)) hpos
    simp only [gomp_iter_dynamic_next, hm, if_pos hpos, if_pos hex]
    exact ⟨rfl, rfl, rfl, by simp; omega, by simp; omega⟩
  · intro hneg hex
    have hch : ws.chunk_size < 0 := by
      rw [hc]
      exact mul_neg_of_pos_of_neg (by exact_mod_cast (by omega : 0 < c)) hneg
    simp only [gomp_iter_dynamic_next, hm, if_neg (by omega : ¬ 0 < ws.incr),
      if_pos hex]
    exact ⟨rfl, rfl, rfl, by simp; omega, by simp; omega⟩

/-- Witness for `dynamic_next_mode_drift`: exhausted state `next = 12` past
`end = 10`, `chunk_size = 3`, `incr = 1`: the call returns false and leaves
`next = 15`. -/
theorem dynamic_next_mode_drift_witness :
    (gomp_iter_dynamic_next ⟨0, 10, 1, 3, 12, true, 0⟩ (5, 7)).ws.next = 15 ∧
    (gomp_iter_dynamic_next ⟨0, 10, 1, 3, 12, true, 0⟩ (5, 7)).ret = false := by
  have h := dynamic_next_mode_drift ⟨0, 10, 1, 3, 12, true, 0⟩ (5, 7) 3 rfl
    (by decide) (by decide)
  exact ⟨by rw [h.1]; decide, (h.2.1 (by decide) (by decide)).1⟩

/-- C5: whenever advancing `begin` by `chunk_size > 0` stays within the
deque (`begin + chunk_size ≤ end`), local acquisition succeeds with the
range `[begin, begin + chunk_size)` and adds `chunk_size` to `nb_exec`.
When `begin + chunk_size < end` this is the lock-free fast path; in the
boundary case `begin + chunk_size = end` the code takes the locked slow
path but produces the identical result. -/
theorem adaptive_local_claim (lq : AdaptiveChunk) (cs : Int) (p0 : Int × Int)
    (hcs : 0 < cs) (h : lq.begin + cs ≤ lq.end') :
    gomp_iter_adaptive_try_local_work lq cs p0 =
      ⟨true, { lq with begin := lq.begin + cs, nb_exec := lq.nb_exec + cs },
        lq.begin, lq.begin + cs⟩ := by
  rcases lt_or_eq_of_le h with hlt | heq
  · simp only [gomp_iter_adaptive_try_local_work, if_pos hlt]
    rw [add_sub_cancel_right]
  · have hnlt : ¬ (lq.begin + cs < lq.end') := by omega
    simp only [gomp_iter_adaptive_try_local_work, if_neg hnlt,
      add_sub_cancel_right]
    have hsz : lq.end' - lq.begin = cs := by omega
    rw [hsz, if_pos hcs, if_neg (lt_irrefl cs)]

/-- Witness for `adaptive_local_claim`: deque `[0,10)`, `chunk_size = 3`. -/
theorem adaptive_local_claim_witness :
    gomp_iter_adaptive_try_local_work ⟨0, 10, 0, true⟩ 3 (0, 0) =
      ⟨true, ⟨3, 10, 3, true⟩, 0, 3⟩ := by
  have h := adaptive_local_claim ⟨0, 10, 0, true⟩ 3 (0, 0) (by decide)
    (by decide)
  simpa using h

set_option maxHeartbeats 1000000 in
/-- C2 (amended): `gomp_iter_static_next` returns -1 exactly on the calls
made after this thread already received the absolutely final range
(`static_trip == -1`), and such calls produce no range and write nothing; a
call with `static_trip ≥ 0` returns 0 (range produced) or 1 (no range),
never a negative value, and when it produces a range, that range is the
absolutely final one (`pend = ws.end`, under the init precondition that the
remaining distance is the multiple `k·incr`) exactly when the clamp
`e0 == n` fires and sets `static_trip` to -1. -/
theorem static_next_return_protocol (ws : WorkShare) (nthreads : Nat)
    (ts : ThreadTs) (p0 : Int × Int) (k : Nat) (hincr : ws.incr ≠ 0)
    (hk : ws.end' - ws.next = (k : Int) * ws.incr) :
    (ts.static_trip = -1 →
      gomp_iter_static_next ws nthreads ts p0 = ⟨-1, -1, p0.1, p0.2⟩) ∧
    (0 ≤ ts.static_trip →
      ((gomp_iter_static_next ws nthreads ts p0).ret = 0 ∨
       (gomp_iter_static_next ws nthreads ts p0).ret = 1)) ∧
    (0 ≤ ts.static_trip →
      (gomp_iter_static_next ws nthreads ts p0).ret = 0 →
      ((gomp_iter_static_next ws nthreads ts p0).pend = ws.end' ↔
       (gomp_iter_static_next ws nthreads ts p0).static_trip = -1)) := by
  refine ⟨?_, ?_, ?_⟩
  · intro h
    simp [gomp_iter_static_next, h]
  · intro htr
    have h1 : ¬ ts.static_trip = -1 := by omega
    simp only [gomp_iter_static_next, if_neg h1]
    split_ifs <;> simp
  · intro htr h0
    have hn1 := static_count_eq ws.incr k hincr
    have hend : ws.end' = ws.next + (k : Int) * ws.incr := by linarith
    have h1 : ¬ ts.static_trip = -1 := by omega
    by_cases h2 : nthreads = 1
    · have hres : gomp_iter_static_next ws nthreads ts p0 =
          ⟨if ws.next = ws.end' then 1 else 0, -1, ws.next, ws.end'⟩ := by
        simp only [gomp_iter_static_next, if_neg h1, if_pos h2]
      rw [hres]
      simp
    · by_cases h3 : ws.chunk_size = 0
      · by_cases h4 : ts.static_trip > 0
        · have hres : gomp_iter_static_next ws nthreads ts p0 =
              ⟨1, ts.static_trip, p0.1, p0.2⟩ := by
            simp only [gomp_iter_static_next, if_neg h1, if_neg h2, if_pos h3,
              if_pos h4]
          rw [hres] at h0
          simp at h0
        · simp only [gomp_iter_static_next, if_neg h1, if_neg h2, if_pos h3,
            if_neg h4] at h0 ⊢
          rw [hk, hn1] at h0 ⊢
          generalize hq : k / nthreads +
              (if k / nthreads * nthreads ≠ k then 1 else 0) = q at h0 ⊢
          generalize hs : q * ts.team_id = s0 at h0 ⊢
          generalize he : (if s0 + q > k then k else s0 + q) = e0 at h0 ⊢
          by_cases hg : s0 ≥ e0
          · rw [if_pos hg] at h0
            simp at h0
          · rw [if_neg hg] at h0 ⊢
            show (e0 : Int) * ws.incr + ws.next = ws.end' ↔
              (if e0 = k then (-1 : Int) else 1) = -1
            by_cases hek : e0 = k
            · rw [if_pos hek, hek]
              exact iff_of_true (by linarith) rfl
            · rw [if_neg hek]
              refine iff_of_false ?_ (by omega)
              intro hpend
              exact hek (Nat.cast_inj.mp (mul_right_cancel₀ hincr
                (by linarith)))
      · simp only [gomp_iter_static_next, if_neg h1, if_neg h2, if_neg h3]
          at h0 ⊢
        rw [hk, hn1] at h0 ⊢
        generalize hs : (ts.static_trip.toNat * nthreads + ts.team_id) *
            ws.chunk_size.toNat = s0 at h0 ⊢
        by_cases hg : s0 ≥ k
        · rw [if_pos hg] at h0
          simp at h0
        · rw [if_neg hg] at h0 ⊢
          generalize he : (if s0 + ws.chunk_size.toNat > k then k
              else s0 + ws.chunk_size.toNat) = e0 at h0 ⊢
          show (e0 : Int) * ws.incr + ws.next = ws.end' ↔
            (if e0 = k then (-1 : Int) else ts.static_trip + 1) = -1
          by_cases hek : e0 = k
          · rw [if_pos hek, hek]
            exact iff_of_true (by linarith) rfl
          · rw [if_neg hek]
            refine iff_of_false ?_ (by omega)
            intro hpend
            exact hek (Nat.cast_inj.mp (mul_right_cancel₀ hincr
              (by linarith)))

/-- Witness for `static_next_return_protocol`: thread 3 of 4 on `[0,10)`
(so `k = 10`): its first call produces the final range, and the iff between
"range reaches the end" and "trip counter marked terminal" holds. -/
theorem static_next_return_protocol_witness :
    ((gomp_iter_static_next ⟨0, 10, 1, 0, 0, false, 0⟩ 4 ⟨3, 0⟩ (0, 0)).pend
        = 10 ↔
     (gomp_iter_static_next ⟨0, 10, 1, 0, 0, false, 0⟩ 4 ⟨3, 0⟩
        (0, 0)).static_trip = -1) := by
  have h := static_next_return_protocol ⟨0, 10, 1, 0, 0, false, 0⟩ 4 ⟨3, 0⟩
    (0, 0) 10 (by decide) (by decide)
  exact h.2.2 (by decide) (by decide)

/-- Well-formedness of any range produced by `gomp_iter_static_next`. -/
theorem static_next_wf (ws : WorkShare) (nthreads : Nat) (ts : ThreadTs)
    (p0 : Int × Int) (k : Nat)
    (hk : ws.end' - ws.next = (k : Int) * ws.incr) :
    (gomp_iter_static_next ws nthreads ts p0).ret = 0 →
    wellFormedRange ws.incr (gomp_iter_static_next ws nthreads ts p0).pstart
      (gomp_iter_static_next ws nthreads ts p0).pend := by
  intro h0
  have hrw : ws.end' = ws.next + (k : Int) * ws.incr := by linarith
  by_cases h1 : ts.static_trip = -1
  · have hres : gomp_iter_static_next ws nthreads ts p0 =
        ⟨-1, ts.static_trip, p0.1, p0.2⟩ := by
      simp only [gomp_iter_static_next, if_pos h1]
    rw [hres] at h0
    simp at h0
  · by_cases h2 : nthreads = 1
    · have hres : gomp_iter_static_next ws nthreads ts p0 =
          ⟨if ws.next = ws.end' then 1 else 0, -1, ws.next, ws.end'⟩ := by
        simp only [gomp_iter_static_next, if_neg h1, if_pos h2]
      rw [hres]
      show wellFormedRange ws.incr ws.next ws.end'
      rw [hrw]
      exact wellFormedRange_add_mul _ _ _
    · by_cases h3 : ws.chunk_size = 0
      · by_cases h4 : ts.static_trip > 0
        · have hres : gomp_iter_static_next ws nthreads ts p0 =
              ⟨1, ts.static_trip, p0.1, p0.2⟩ := by
            simp only [gomp_iter_static_next, if_neg h1, if_neg h2,
              if_pos h3, if_pos h4]
          rw [hres] at h0
          simp at h0
        · simp only [gomp_iter_static_next, if_neg h1, if_neg h2, if_pos h3,
            if_neg h4] at h0 ⊢
          generalize hn : ((ws.end' - ws.next +
              (ws.incr + if ws.incr > 0 then -1 else 1)).tdiv
              ws.incr).toNat = n at h0 ⊢
          generalize hq : n / nthreads +
              (if n / nthreads * nthreads ≠ n then 1 else 0) = q at h0 ⊢
          generalize hs : q * ts.team_id = s0 at h0 ⊢
          generalize he : (if s0 + q > n then n else s0 + q) = e0 at h0 ⊢
          by_cases hg : s0 ≥ e0
          · rw [if_pos hg] at h0
            simp at h0
          · rw [if_neg hg] at h0 ⊢
            show wellFormedRange ws.incr ((s0 : Int) * ws.incr + ws.next)
              ((e0 : Int) * ws.incr + ws.next)
            have hle : s0 ≤ e0 := by omega
            have hsplit : (e0 : Int) * ws.incr + ws.next =
                ((s0 : Int) * ws.incr + ws.next) +
                  ((e0 - s0 : Nat) : Int) * ws.incr := by
              push_cast [Nat.cast_sub hle]
              ring
            rw [hsplit]
            exact wellFormedRange_add_mul _ _ _
      · simp only [gomp_iter_static_next, if_neg h1, if_neg h2, if_neg h3]
          at h0 ⊢
        generalize hn : ((ws.end' - ws.next +
            (ws.incr + if ws.incr > 0 then -1 else 1)).tdiv
            ws.incr).toNat = n at h0 ⊢
        generalize hs : (ts.static_trip.toNat * nthreads + ts.team_id) *
            ws.chunk_size.toNat = s0 at h0 ⊢
        by_cases hg : s0 ≥ n
        · rw [if_pos hg] at h0
          simp at h0
        · rw [if_neg hg] at h0 ⊢
          have hle : s0 ≤ (if s0 + ws.chunk_size.toNat > n then n
              else s0 + ws.chunk_size.toNat) := by
            split_ifs <;> omega
          generalize he : (if s0 + ws.chunk_size.toNat > n then n
              else s0 + ws.chunk_size.toNat) = e0 at hle ⊢
          show wellFormedRange ws.incr ((s0 : Int) * ws.incr + ws.next)
            ((e0 : Int) * ws.incr + ws.next)
          have hsplit : (e0 : Int) * ws.incr + ws.next =
              ((s0 : Int) * ws.incr + ws.next) +
                ((e0 - s0 : Nat) : Int) * ws.incr := by
            push_cast [Nat.cast_sub hle]
            ring
          rw [hsplit]
          exact wellFormedRange_add_mul _ _ _

/-- Well-formedness of any range produced by `gomp_iter_dynamic_next_locked`. -/
theorem dynamic_next_locked_wf (ws : WorkShare) (p0 : Int × Int) (k c : Nat)
    (hincr : ws.incr ≠ 0) (hk : ws.end' - ws.next = (k : Int) * ws.incr)
    (hc : ws.chunk_size = (c : Int) * ws.incr) :
    (gomp_iter_dynamic_next_locked ws p0).ret = true →
    wellFormedRange ws.incr (gomp_iter_dynamic_next_locked ws p0).pstart
      (gomp_iter_dynamic_next_locked ws p0).pend := by
  intro h0
  by_cases h1 : ws.next = ws.end'
  · have hres : gomp_iter_dynamic_next_locked ws p0 =
        ⟨false, ws, p0.1, p0.2⟩ := by
      simp only [gomp_iter_dynamic_next_locked, if_pos h1]
    rw [hres] at h0
    simp at h0
  · simp only [gomp_iter_dynamic_next_locked, if_neg h1]
    show wellFormedRange ws.incr ws.next (ws.next +
      (if ws.incr < 0
        then (if ws.chunk_size < ws.end' - ws.next then ws.end' - ws.next
          else ws.chunk_size)
        else (if ws.chunk_size > ws.end' - ws.next then ws.end' - ws.next
          else ws.chunk_size)))
    rcases hincr.lt_or_lt with hneg | hpos
    · rw [if_pos hneg]
      by_cases h2 : ws.chunk_size < ws.end' - ws.next
      · rw [if_pos h2, hk]
        exact wellFormedRange_add_mul _ _ _
      · rw [if_neg h2, hc]
        exact wellFormedRange_add_mul _ _ _
    · rw [if_neg (by omega : ¬ ws.incr < 0)]
      by_cases h2 : ws.chunk_size > ws.end' - ws.next
      · rw [if_pos h2, hk]
        exact wellFormedRange_add_mul _ _ _
      · rw [if_neg h2, hc]
        exact wellFormedRange_add_mul _ _ _

/-- Well-formedness of any range produced by `gomp_iter_dynamic_next`
(both the fetch-and-add fast path and the CAS path). -/
theorem dynamic_next_wf (ws : WorkShare) (p0 : Int × Int) (k c : Nat)
    (hincr : ws.incr ≠ 0) (hk : ws.end' - ws.next = (k : Int) * ws.incr)
    (hc : ws.chunk_size = (c : Int) * ws.incr) :
    (gomp_iter_dynamic_next ws p0).ret = true →
    wellFormedRange ws.incr (gomp_iter_dynamic_next ws p0).pstart
      (gomp_iter_dynamic_next ws p0).pend := by
  intro h0
  have hrw : ws.end' = ws.next + (k : Int) * ws.incr := by linarith
  by_cases hm : ws.mode
  · simp only [gomp_iter_dynamic_next, hm, if_true] at h0 ⊢
    rcases hincr.lt_or_lt with hneg | hpos
    · rw [if_neg (by omega : ¬ ws.incr > 0)] at h0 ⊢
      by_cases hex : ws.next ≤ ws.end'
      · rw [if_pos hex] at h0
        simp at h0
      · rw [if_neg hex] at h0 ⊢
        show wellFormedRange ws.incr ws.next
          (if ws.next + ws.chunk_size < ws.end' then ws.end'
            else ws.next + ws.chunk_size)
        by_cases hcl : ws.next + ws.chunk_size < ws.end'
        · rw [if_pos hcl, hrw]
          exact wellFormedRange_add_mul _ _ _
        · rw [if_neg hcl, hc]
          exact wellFormedRange_add_mul _ _ _
    · rw [if_pos hpos] at h0 ⊢
      by_cases hex : ws.next ≥ ws.end'
      · rw [if_pos hex] at h0
        simp at h0
      · rw [if_neg hex] at h0 ⊢
        show wellFormedRange ws.incr ws.next
          (if ws.next + ws.chunk_size > ws.end' then ws.end'
            else ws.next + ws.chunk_size)
        by_cases hcl : ws.next + ws.chunk_size > ws.end'
        · rw [if_pos hcl, hrw]
          exact wellFormedRange_add_mul _ _ _
        · rw [if_neg hcl, hc]
          exact wellFormedRange_add_mul _ _ _
  · simp only [gomp_iter_dynamic_next, hm, if_false, Bool.false_eq_true]
      at h0 ⊢
    by_cases h1 : ws.next = ws.end'
    · rw [if_pos h1] at h0
      simp at h0
    · rw [if_neg h1] at h0 ⊢
      show wellFormedRange ws.incr ws.next (ws.next +
        (if ws.incr < 0
          then (if ws.chunk_size < ws.end' - ws.next then ws.end' - ws.next
            else ws.chunk_size)
          else (if ws.chunk_size > ws.end' - ws.next then ws.end' - ws.next
            else ws.chunk_size)))
      rcases hincr.lt_or_lt with hneg | hpos
      · rw [if_pos hneg]
        by_cases h2 : ws.chunk_size < ws.end' - ws.next
        · rw [if_pos h2, hk]
          exact wellFormedRange_add_mul _ _ _
        · rw [if_neg h2, hc]
          exact wellFormedRange_add_mul _ _ _
      · rw [if_neg (by omega : ¬ ws.incr < 0)]
        by_cases h2 : ws.chunk_size > ws.end' - ws.next
        · rw [if_pos h2, hk]
          exact wellFormedRange_add_mul _ _ _
        · rw [if_neg h2, hc]
          exact wellFormedRange_add_mul _ _ _

/-- Well-formedness of any range produced by `gomp_iter_guided_next_locked`. -/
theorem guided_next_locked_wf (ws : WorkShare) (nthreads : Nat)
    (p0 : Int × Int) (k : Nat) (hincr : ws.incr ≠ 0)
    (hk : ws.end' - ws.next = (k : Int) * ws.incr) :
    (gomp_iter_guided_next_locked ws nthreads p0).ret = true →
    wellFormedRange ws.incr (gomp_iter_guided_next_locked ws nthreads p0).pstart
      (gomp_iter_guided_next_locked ws nthreads p0).pend := by
  intro h0
  rcases Nat.eq_zero_or_pos k with hk0 | hk1
  · subst hk0
    have h1 : ws.next = ws.end' := by
      push_cast at hk
      rw [zero_mul] at hk
      omega
    have hres : gomp_iter_guided_next_locked ws nthreads p0 =
        ⟨false, ws, p0.1, p0.2⟩ := by
      simp only [gomp_iter_guided_next_locked, if_pos h1]
    rw [hres] at h0
    simp at h0
  · rw [guided_next_locked_eq ws nthreads p0 k hincr hk hk1]
    show wellFormedRange ws.incr ws.next (ws.next + _ * ws.incr)
    exact wellFormedRange_add_mul _ _ _

/-- Well-formedness of any range produced by `gomp_iter_guided_next`. -/
theorem guided_next_wf (ws : WorkShare) (nthreads : Nat)
    (p0 : Int × Int) (k : Nat) (hincr : ws.incr ≠ 0)
    (hk : ws.end' - ws.next = (k : Int) * ws.incr) :
    (gomp_iter_guided_next ws nthreads p0).ret = true →
    wellFormedRange ws.incr (gomp_iter_guided_next ws nthreads p0).pstart
      (gomp_iter_guided_next ws nthreads p0).pend := by
  intro h0
  rcases Nat.eq_zero_or_pos k with hk0 | hk1
  · subst hk0
    have h1 : ws.next = ws.end' := by
      push_cast at hk
      rw [zero_mul] at hk
      omega
    have hres : gomp_iter_guided_next ws nthreads p0 =
        ⟨false, ws, p0.1, p0.2⟩ := by
      simp only [gomp_iter_guided_next, if_pos h1]
    rw [hres] at h0
    simp at h0
  · rw [guided_next_eq ws nthreads p0 k hincr hk hk1]
    show wellFormedRange ws.incr ws.next (ws.next + _ * ws.incr)
    exact wellFormedRange_add_mul _ _ _

/-- C3: under the init preconditions (nonzero `incr`, remaining distance
`end - next` the multiple `k·incr`, dynamic chunk field the multiple
`c·incr`), every range produced by the static, dynamic (locked or
lock-free), or guided (locked or lock-free) `next` is well formed:
`pstart ≤ pend` with `(pend - pstart) mod incr = 0` for positive `incr`,
and symmetrically for negative `incr`. -/
theorem produced_ranges_well_formed (ws : WorkShare) (nthreads : Nat)
    (ts : ThreadTs) (p0 : Int × Int) (k c : Nat) (hincr : ws.incr ≠ 0)
    (hk : ws.end' - ws.next = (k : Int) * ws.incr)
    (hc : ws.chunk_size = (c : Int) * ws.incr) :
    ((gomp_iter_static_next ws nthreads ts p0).ret = 0 →
      wellFormedRange ws.incr (gomp_iter_static_next ws nthreads ts p0).pstart
        (gomp_iter_static_next ws nthreads ts p0).pend) ∧
    ((gomp_iter_dynamic_next_locked ws p0).ret = true →
      wellFormedRange ws.incr (gomp_iter_dynamic_next_locked ws p0).pstart
        (gomp_iter_dynamic_next_locked ws p0).pend) ∧
    ((gomp_iter_dynamic_next ws p0).ret = true →
      wellFormedRange ws.incr (gomp_iter_dynamic_next ws p0).pstart
        (gomp_iter_dynamic_next ws p0).pend) ∧
    ((gomp_iter_guided_next_locked ws nthreads p0).ret = true →
      wellFormedRange ws.incr
        (gomp_iter_guided_next_locked ws nthreads p0).pstart
        (gomp_iter_guided_next_locked ws nthreads p0).pend) ∧
    ((gomp_iter_guided_next ws nthreads p0).ret = true →
      wellFormedRange ws.incr (gomp_iter_guided_next ws nthreads p0).pstart
        (gomp_iter_guided_next ws nthreads p0).pend) :=
  ⟨static_next_wf ws nthreads ts p0 k hk,
   dynamic_next_locked_wf ws p0 k c hincr hk hc,
   dynamic_next_wf ws p0 k c hincr hk hc,
   guided_next_locked_wf ws nthreads p0 k hincr hk,
   guided_next_wf ws nthreads p0 k hincr hk⟩

/-- Witness for `produced_ranges_well_formed`: `[4,10)` remaining,
`incr = 1`, dynamic chunk field `2 = 2·1`, thread 0 of 4. -/
theorem produced_ranges_well_formed_witness :
    wellFormedRange 1 (gomp_iter_dynamic_next_locked
        ⟨0, 10, 1, 2, 4, false, 0⟩ (0, 0)).pstart
      (gomp_iter_dynamic_next_locked ⟨0, 10, 1, 2, 4, false, 0⟩ (0, 0)).pend ∧
    wellFormedRange 1 (gomp_iter_guided_next
        ⟨0, 10, 1, 2, 4, false, 0⟩ 4 (0, 0)).pstart
      (gomp_iter_guided_next ⟨0, 10, 1, 2, 4, false, 0⟩ 4 (0, 0)).pend := by
  have h := produced_ranges_well_formed ⟨0, 10, 1, 2, 4, false, 0⟩ 4 ⟨0, 0⟩
    (0, 0) 6 2 (by decide) (by decide) (by decide)
  exact ⟨h.2.1 (by decide), h.2.2.2.2 (by decide)⟩
